import Mathlib

/-!
Verification development for the forensic-analyzer evaluation pipeline.

Shallow embedding of `src/evaluate.py` (artifact-set construction, phase-map
construction, precision/recall/F1 scoring, mapping accuracy) and of the
JSON-recovery parse in `src/forensic_analyzer_backup.py`
(`ArtifactExtractorModule.extract_artifacts`).

Strings are modelled as `List Char`; Python floats as `ℚ`; Python
exceptions as `Option.none`; JSON-ish Python values as the inductive `JVal`.
-/

set_option autoImplicit false

namespace Forensic

/-- ASCII whitespace recognised by Python's `str.strip()`. -/
def isSpace (c : Char) : Bool :=
  c = ' ' || c = '\t' || c = '\n' || c = '\r' || c = '\x0b' || c = '\x0c'

/-- Python `s.strip()`: drop whitespace from both ends. -/
def strip (s : List Char) : List Char :=
  ((s.dropWhile isSpace).reverse.dropWhile isSpace).reverse

/-- Python `s.lower()` (ASCII model). -/
def toLower (s : List Char) : List Char :=
  s.map Char.toLower

/-- Python `hay.find(needle)` restricted to the tail starting at offset 0:
first index at which `needle` occurs, scanning left to right. -/
def findAux (needle : List Char) : List Char → Nat → Option Nat
  | [], i => if needle = [] then some i else none
  | c :: rest, i =>
    if needle.isPrefixOf (c :: rest) then some i else findAux needle rest (i + 1)

/-- Python `hay.find(needle, start)`: absolute index of the first occurrence
at or after `start`, `none` standing for Python's `-1`. -/
def findFrom (needle hay : List Char) (start : Nat) : Option Nat :=
  (findAux needle (hay.drop start) 0).map (· + start)

/-- Python slice `s[a:b]`. -/
def slice (s : List Char) (a b : Nat) : List Char :=
  (s.drop a).take (b - a)

/-- JSON-ish Python value: the shapes `json.loads` can produce. -/
inductive JVal where
  | null
  | bool (b : Bool)
  | num (n : Int)
  | str (s : List Char)
  | arr (xs : List JVal)
  | obj (fields : List (List Char × JVal))

/-- Python truthiness of a `JVal`. -/
def truthy : JVal → Bool
  | .null => false
  | .bool b => b
  | .num n => n ≠ 0
  | .str s => s ≠ []
  | .arr xs => !xs.isEmpty
  | .obj fs => !fs.isEmpty

/-- Python `x or ''`: keep `x` if truthy, else the empty string. -/
def pyOrEmptyStr (v : JVal) : JVal :=
  if truthy v then v else .str []

/-- Python `x or []`: keep `x` if truthy, else the empty list. -/
def pyOrEmptyList (v : JVal) : JVal :=
  if truthy v then v else .arr []

/-- Lookup of a key in a Python dict's field list (`d[k]` when present). -/
def dlookup (fs : List (List Char × JVal)) (k : List Char) : Option JVal :=
  (fs.find? (fun p => p.1 = k)).map (fun p => p.2)

/-- Python `d.get(k, default)`. -/
def dlookupD (fs : List (List Char × JVal)) (k : List Char) (dflt : JVal) : JVal :=
  match dlookup fs k with
  | some v => v
  | none => dflt

/-- Python `d.get(k)` (default `None`). -/
def dlookupN (fs : List (List Char × JVal)) (k : List Char) : JVal :=
  dlookupD fs k .null

/-- Python iteration `for x in v`: `none` models a `TypeError` on a
non-iterable; iterating a string yields its one-character strings and
iterating a dict yields its keys (as strings). -/
def iterElems : JVal → Option (List JVal)
  | .arr xs => some xs
  | .str s => some (s.map (fun c => .str [c]))
  | .obj fs => some (fs.map (fun p => .str p.1))
  | _ => none

/-- Python `v.strip()`: succeeds only on a string (`AttributeError`
otherwise, modelled as `none`). -/
def asStr : JVal → Option (List Char)
  | .str s => some s
  | _ => none

/-- An artifact identity pair `(normalized type, normalized value)`. -/
abbrev Artifact := List Char × List Char

def typeKey : List Char := "type".toList

def valueKey : List Char := "value".toList

def artifactsKey : List Char := "artifacts".toList

def phaseKey : List Char := "phase".toList

def killChainKey : List Char := "kill_chain_mapping".toList

/-- `(a.get('type') or '').strip().lower()`; `none` models the
`AttributeError` raised when `a` is not a dict or the field is a truthy
non-string. -/
def normType (a : JVal) : Option (List Char) :=
  match a with
  | .obj fs => (asStr (pyOrEmptyStr (dlookupN fs typeKey))).map (fun s => toLower (strip s))
  | _ => none

/-- `(a.get('value') or '').strip()`; `none` models the same failures as
`normType`. -/
def normVal (a : JVal) : Option (List Char) :=
  match a with
  | .obj fs => (asStr (pyOrEmptyStr (dlookupN fs valueKey))).map strip
  | _ => none

/-- Loop body of `to_artifact_set`: fold the artifact elements into the set,
propagating a raised exception as `none`. -/
def artLoop : List JVal → Finset Artifact → Option (Finset Artifact)
  | [], acc => some acc
  | a :: rest, acc =>
    match normType a, normVal a with
    | some t, some v =>
      artLoop rest (if t ≠ [] ∧ v ≠ [] then insert (t, v) acc else acc)
    | _, _ => none

/-- `evaluate.to_artifact_set`: a non-dict argument degrades to no artifacts;
a present `artifacts` value is iterated, each element normalized, and the
pairs with non-empty type and value collected. -/
def to_artifact_set (artifacts_obj : JVal) : Option (Finset Artifact) :=
  let artifacts : JVal :=
    match artifacts_obj with
    | .obj fs => dlookupD fs artifactsKey (.arr [])
    | _ => .arr []
  match iterElems artifacts with
  | some xs => artLoop xs ∅
  | none => none

/-- A Python dict modelled as an association list in insertion order. -/
abbrev Dict (β : Type) := List (Artifact × β)

/-- Python `m[k] = v`: overwrite in place when present, append otherwise. -/
def dinsert {β : Type} (m : Dict β) (k : Artifact) (v : β) : Dict β :=
  if m.any (fun p => p.1 = k) then
    m.map (fun p => if p.1 = k then (k, v) else p)
  else
    m ++ [(k, v)]

/-- Python `m.get(k)` on the modelled dict. -/
def dget {β : Type} (m : Dict β) (k : Artifact) : Option β :=
  (m.find? (fun p => p.1 = k)).map (fun p => p.2)

/-- Python `set(m.keys())` on the modelled dict. -/
def dkeys {β : Type} (m : Dict β) : Finset Artifact :=
  (m.map Prod.fst).toFinset

/-- Inner loop of `to_phase_map`: fold one phase group's artifact elements
into the mapping. -/
def phaseArtLoop (phase_name : JVal) : List JVal → Dict JVal → Option (Dict JVal)
  | [], m => some m
  | a :: rest, m =>
    match normType a, normVal a with
    | some t, some v =>
      phaseArtLoop phase_name rest
        (if t ≠ [] ∧ v ≠ [] ∧ truthy phase_name then dinsert m (t, v) phase_name else m)
    | _, _ => none

/-- Outer loop of `to_phase_map` over the phase groups; a non-dict group
raises (Python `p.get` on a non-dict). -/
def phaseLoop : List JVal → Dict JVal → Option (Dict JVal)
  | [], m => some m
  | p :: rest, m =>
    match p with
    | .obj fs =>
      match iterElems (pyOrEmptyList (dlookupD fs artifactsKey (.arr []))) with
      | some xs =>
        match phaseArtLoop (dlookupD fs phaseKey (.str [])) xs m with
        | some m2 => phaseLoop rest m2
        | none => none
      | none => none
    | _ => none

/-- `evaluate.to_phase_map`: flatten `kill_chain_mapping` groups into a
last-write-wins map from artifact identity pair to phase value. -/
def to_phase_map (kill_chain_obj : JVal) : Option (Dict JVal) :=
  let phases : JVal :=
    match kill_chain_obj with
    | .obj fs => dlookupD fs killChainKey (.arr [])
    | _ => .arr []
  match iterElems phases with
  | some ps => phaseLoop ps []
  | none => none

/-- `evaluate.precision_recall_f1` over artifact identity sets, with the
float arithmetic modelled in `ℚ`. -/
def precision_recall_f1 (pred truth : Finset Artifact) : ℚ × ℚ × ℚ :=
  let tp : ℚ := (pred ∩ truth).card
  let fp : ℚ := (pred \ truth).card
  let fneg : ℚ := (truth \ pred).card
  let prec : ℚ := if tp + fp > 0 then tp / (tp + fp) else 0
  let rcl : ℚ := if tp + fneg > 0 then tp / (tp + fneg) else 0
  let f1 : ℚ := if prec + rcl > 0 then 2 * prec * rcl / (prec + rcl) else 0
  (prec, rcl, f1)

/-- `evaluate.mapping_accuracy`: agreement rate over the shared keys, `0.0`
when there are none. -/
def mapping_accuracy {β : Type} [DecidableEq β] (pred_map truth_map : Dict β) : ℚ :=
  let keys := dkeys truth_map ∩ dkeys pred_map
  if keys = ∅ then 0
  else
    let correct := (keys.filter (fun k => dget pred_map k = dget truth_map k)).card
    (correct : ℚ) / keys.card

/-- The literal `"```json"` marker searched for by `extract_artifacts`. -/
def jsonFenceMarker : List Char := "```json".toList

/-- The literal closing fence `"```"`. -/
def closingFence : List Char := "```".toList

/-- Outcome of one call to the parse-recovery portion of
`extract_artifacts`: the parsed object is returned, or the
`Failed to parse JSON response` exception is raised after both parse
attempts fail, or an `AttributeError`/`TypeError` from the
`len(artifacts_json.get('artifacts', []))` logging line escapes the
`json.JSONDecodeError` handlers entirely (the stage's outer handler then
exits the process). -/
inductive ExtractResult where
  | ok (j : JVal)
  | malformed
  | crashed

/-- Python `len(v)`: defined for the sized shapes (list, string, dict),
`TypeError` (modelled as `none`) otherwise. -/
def pyLen : JVal → Option Nat
  | .arr xs => some xs.length
  | .str s => some s.length
  | .obj fs => some fs.length
  | _ => none

/-- `len(artifacts_json.get('artifacts', []))` as run on each successful
parse at `forensic_analyzer_backup.py:139` and `:153`: `AttributeError`
(`none`) when the parsed value is not a dict, `TypeError` (`none`) when its
`artifacts` value is not sized. -/
def countArtifacts (j : JVal) : Option Nat :=
  match j with
  | .obj fs => pyLen (dlookupD fs artifactsKey (.arr []))
  | _ => none

/-- The parse-recovery portion of
`ArtifactExtractorModule.extract_artifacts`, parameterized by the JSON
parse (`json.loads` producing a `JVal` with `some` and raising
`json.JSONDecodeError` with `none`): strip the raw generation text, attempt
a direct parse, and on failure attempt the substring between the first
`jsonFenceMarker` and the next closing fence. Each successful parse then
runs `countArtifacts` before returning; a failure there is not a
`JSONDecodeError`, so it skips the fenced fallback and the
`Failed to parse JSON response` raise, and escapes as `crashed`. -/
def extract_artifacts_recover (parse : List Char → Option JVal) (raw : List Char) :
    ExtractResult :=
  let response_text := strip raw
  match parse response_text with
  | some j =>
    match countArtifacts j with
    | some _ => .ok j
    | none => .crashed
  | none =>
    match findFrom jsonFenceMarker response_text 0 with
    | none => .malformed
    | some idx =>
      let json_start := idx + 7
      match findFrom closingFence response_text json_start with
      | none => .malformed
      | some json_end =>
        if json_start < json_end then
          match parse (strip (slice response_text json_start json_end)) with
          | some j =>
            match countArtifacts j with
            | some _ => .ok j
            | none => .crashed
          | none => .malformed
        else .malformed

/-- The response-recovery algorithm as the amended claim words it: parse the
whole trimmed text; otherwise, when a `"```json"` marker is present and a
closing fence follows it, parse the trimmed substring strictly between
them; a successfully parsed object is returned only when it passes the
artifact-count gate (a dict whose `artifacts` value, defaulting to `[]`, is
sized) and otherwise the count error escapes; the malformed-response error
is raised exactly when both parse attempts fail. -/
def recoverSpecAmended (parse : List Char → Option JVal) (raw : List Char) : ExtractResult :=
  let t := strip raw
  match parse t with
  | some j => if (countArtifacts j).isSome then .ok j else .crashed
  | none =>
    match findFrom jsonFenceMarker t 0 with
    | none => .malformed
    | some idx =>
      match findFrom closingFence t (idx + 7) with
      | none => .malformed
      | some e =>
        match parse (strip (slice t (idx + 7) e)) with
        | some j => if (countArtifacts j).isSome then .ok j else .crashed
        | none => .malformed

/-- Division as the specification words it: `a/b` when the denominator is
non-zero, `0.0` (never an error) when it is zero. -/
def safeDiv (a b : ℚ) : ℚ := if b = 0 then 0 else a / b

/-- A `type`/`value` field as the data model allows it: absent rendered as
the empty string, otherwise the field's string. -/
def fieldAsStr : Option JVal → Option (List Char)
  | none => some []
  | some (.str s) => some s
  | some _ => none

/-- A concrete artifact record used to witness the normalization theorem. -/
def artRecW : List (List Char × JVal) :=
  [(typeKey, .str "  IP ".toList), (valueKey, .str " 1.2.3.4 ".toList)]

/-- The comparison-set membership rule as the specification words it: keep
the normalized pair exactly when both components are non-empty. -/
def specNormPair (a : JVal) : Option Artifact :=
  match normType a, normVal a with
  | some t, some v => if t ≠ [] ∧ v ≠ [] then some (t, v) else none
  | _, _ => none

/-- A concrete artifacts document: one well-formed artifact, one with a
missing value and one with a whitespace-only type, used to witness the
artifact-set theorem. -/
def artsDocW : List (List Char × JVal) :=
  [(artifactsKey, .arr
    [.obj [(typeKey, .str "  IP ".toList), (valueKey, .str " 1.2.3.4 ".toList)],
     .obj [(typeKey, .str "hash".toList)],
     .obj [(typeKey, .str "   ".toList), (valueKey, .str "x".toList)]])]

/-- The artifact elements of `artsDocW`. -/
def artsElemsW : List JVal :=
  [.obj [(typeKey, .str "  IP ".toList), (valueKey, .str " 1.2.3.4 ".toList)],
   .obj [(typeKey, .str "hash".toList)],
   .obj [(typeKey, .str "   ".toList), (valueKey, .str "x".toList)]]

/-- Shadowing of an older optional value by a newer one: the newer value
wins when present. -/
def override {γ : Type} (old new : Option γ) : Option γ :=
  match new with
  | some x => some x
  | none => old

/-- The phase assigned to a key by a list of writes in order: the value of
the last write for that key, the specification's last-write-wins rule. -/
def lastAssign {β : Type} (w : List (Artifact × β)) (k : Artifact) : Option β :=
  (w.reverse.find? (fun p => p.1 = k)).map (fun p => p.2)

/-- The single write (if any) a `kill_chain_mapping` artifact entry `a`
contributes under phase value `phase`, as the specification words it:
skipped when the normalized type or value is empty or the phase name is
empty (falsy). -/
def writeOf (phase : JVal) (a : JVal) : Option (Artifact × JVal) :=
  match normType a, normVal a with
  | some t, some v => if t ≠ [] ∧ v ≠ [] ∧ truthy phase then some ((t, v), phase) else none
  | _, _ => none

/-- The writes a phase group contributes, in entry order. -/
def groupWrites (p : JVal) : List (Artifact × JVal) :=
  match p with
  | .obj fs =>
    match iterElems (pyOrEmptyList (dlookupD fs artifactsKey (.arr []))) with
    | some xs => xs.filterMap (writeOf (dlookupD fs phaseKey (.str [])))
    | none => []
  | _ => []

/-- All writes of a document's phase groups, flattened in list order. -/
def docWrites : List JVal → List (Artifact × JVal)
  | [] => []
  | p :: rest => groupWrites p ++ docWrites rest

/-- The phase-group list of the witness document: the same artifact pair
first under `"Initial Access"`, then under `"Persistence"`. -/
def kcGroupsW : List JVal :=
  [.obj [(phaseKey, .str "Initial Access".toList),
         (artifactsKey, .arr
           [.obj [(typeKey, .str "ip".toList), (valueKey, .str "1.2.3.4".toList)]])],
   .obj [(phaseKey, .str "Persistence".toList),
         (artifactsKey, .arr
           [.obj [(typeKey, .str "ip".toList), (valueKey, .str "1.2.3.4".toList)]])]]

/-- Field list of the witness kill-chain document. -/
def kcDocW : List (List Char × JVal) := [(killChainKey, .arr kcGroupsW)]

/-- The phase map the code builds from `kcDocW`. -/
def kcMapW : Dict JVal :=
  [(("ip".toList, "1.2.3.4".toList), .str "Persistence".toList)]

/-- An artifact entry that normalizes without raising: a dict whose `type`
and `value` fields are absent, falsy, or strings. -/
def entryOk (a : JVal) : Bool := (normType a).isSome && (normVal a).isSome

/-- The value `to_artifact_set` iterates over. -/
def artifactsContainer (doc : JVal) : JVal :=
  match doc with
  | .obj fs => dlookupD fs artifactsKey (.arr [])
  | _ => .arr []

/-- Iterability of the artifact container plus normalizability of every
entry: the well-formedness under which `to_artifact_set` cannot raise. -/
def wfArtifactsObj (doc : JVal) : Bool :=
  match iterElems (artifactsContainer doc) with
  | some xs => xs.all entryOk
  | none => false

/-- A phase group `to_phase_map` can process without raising: a dict whose
(`or []`-defaulted) artifact list is iterable with normalizable entries. -/
def groupOk (p : JVal) : Bool :=
  match p with
  | .obj fs =>
    match iterElems (pyOrEmptyList (dlookupD fs artifactsKey (.arr []))) with
    | some xs => xs.all entryOk
    | none => false
  | _ => false

/-- The value `to_phase_map` iterates over. -/
def killChainContainer (doc : JVal) : JVal :=
  match doc with
  | .obj fs => dlookupD fs killChainKey (.arr [])
  | _ => .arr []

/-- Well-formedness under which `to_phase_map` cannot raise. -/
def wfKillChainObj (doc : JVal) : Bool :=
  match iterElems (killChainContainer doc) with
  | some gs => gs.all groupOk
  | none => false

/-- A well-formed artifacts document exercising absent keys, null fields
and a non-dict top level, used to witness the amended totality theorem. -/
def wfArtsDocW : JVal :=
  .obj [(artifactsKey, .arr
    [.obj [(typeKey, .str "ip".toList), (valueKey, .str "1.2.3.4".toList)],
     .obj [(typeKey, .null)],
     .obj []])]

/-- A well-formed kill-chain document with a null artifacts list in one
group, used to witness the amended totality theorem. -/
def wfKcDocW : JVal :=
  .obj [(killChainKey, .arr
    [.obj [(phaseKey, .str "Delivery".toList),
           (artifactsKey, .arr [.obj [(typeKey, .str "ip".toList),
                                      (valueKey, .str "1.2.3.4".toList)]])],
     .obj [(phaseKey, .str "Persistence".toList), (artifactsKey, .null)]])]

/-- A predicted phase map with a shared agreeing key and a shared
disagreeing key, used to witness the mapping-accuracy theorem. -/
def pmW : Dict (List Char) :=
  [(("ip".toList, "1.2.3.4".toList), "Initial Access".toList),
   (("hash".toList, "abc".toList), "Exfiltration".toList)]

/-- The matching truth phase map for `pmW`. -/
def tmW : Dict (List Char) :=
  [(("ip".toList, "1.2.3.4".toList), "Initial Access".toList),
   (("hash".toList, "abc".toList), "Persistence".toList)]

/-- A toy stand-in for `json.loads` defined on exactly two texts: the array
text `"[1]"` and the empty-object text; used to refute the original
recovery claim and witness the amended one on concrete responses. -/
def toyJsonParse (s : List Char) : Option JVal :=
  if s = "[1]".toList then some (.arr [.num 1])
  else if s = "\x7b\x7d".toList then some (.obj [])
  else none

/-- A raw response whose whole trimmed text parses directly to a non-dict
JSON value. -/
def crashRaw : List Char := " [1] ".toList

/-- A raw generation response wrapping an empty-object payload in prose and
a markdown fence. -/
def okRaw : List Char :=
  "Here is the result:\n```json\n\x7b\x7d\n```\ndone".toList

theorem findAux_some_le (needle : List Char) :
    ∀ (hay : List Char) (i j : Nat), findAux needle hay i = some j → i ≤ j := by
  intro hay
  induction hay with
  | nil =>
    intro i j h
    unfold findAux at h
    split at h
    · exact (Option.some.inj h) ▸ le_refl i
    · exact absurd h (by simp)
  | cons c rest ih =>
    intro i j h
    unfold findAux at h
    split at h
    · exact (Option.some.inj h) ▸ le_refl i
    · exact le_trans (Nat.le_succ i) (ih (i + 1) j h)

theorem findFrom_some_le {needle hay : List Char} {start i : Nat}
    (h : findFrom needle hay start = some i) : start ≤ i := by
  unfold findFrom at h
  cases ha : findAux needle (hay.drop start) 0 with
  | none => rw [ha] at h; cases h
  | some j =>
    rw [ha] at h
    simp only [Option.map_some', Option.some.injEq] at h
    omega

theorem slice_self (s : List Char) (a : Nat) : slice s a a = [] := by
  simp [slice]

theorem strip_nil : strip [] = [] := rfl

/-- Counterexample to claim C3: on the response `" [1] "` the whole trimmed
text parses successfully as JSON, yet the parsed object is not returned —
the `len(artifacts_json.get('artifacts', []))` line raises
`AttributeError` on the non-dict result and escapes the recovery
(`crashed`), contradicting step (1) of the claimed algorithm. -/
theorem extract_artifacts_not_returning_on_success :
    toyJsonParse (strip crashRaw) = some (.arr [.num 1]) ∧
      extract_artifacts_recover toyJsonParse crashRaw = .crashed ∧
      extract_artifacts_recover toyJsonParse crashRaw ≠ .ok (.arr [.num 1]) :=
  ⟨rfl, rfl, fun h =>
    ExtractResult.noConfusion
      ((rfl : extract_artifacts_recover toyJsonParse crashRaw = .crashed).symm.trans h)⟩

/-- Claim C3 amended: the recovery parses the whole trimmed text, then the
trimmed substring strictly between the first `"```json"` marker and the
next closing fence; a successfully parsed object is returned only through
the artifact-count gate (a dict whose `artifacts` value, defaulting to the
empty list, is sized), whose failure escapes the recovery entirely; the
malformed-response error occurs exactly when both parse attempts fail. For
any parse function rejecting the empty string (as `json.loads` does), the
code's recovery equals the amended algorithm. -/
theorem extract_artifacts_matches_amendedSpec
    (parse : List Char → Option JVal) (raw : List Char)
    (hempty : parse [] = none) :
    extract_artifacts_recover parse raw = recoverSpecAmended parse raw := by
  unfold extract_artifacts_recover recoverSpecAmended
  cases hp : parse (strip raw) with
  | some j =>
    cases hc : countArtifacts j with
    | some n =>
      simp only [hp, hc]
      rfl
    | none =>
      simp only [hp, hc]
      rfl
  | none =>
    cases hf : findFrom jsonFenceMarker (strip raw) 0 with
    | none => simp only [hp, hf]
    | some idx =>
      cases hg : findFrom closingFence (strip raw) (idx + 7) with
      | none => simp only [hp, hf, hg]
      | some e =>
        by_cases hlt : idx + 7 < e
        · simp only [hp, hf, hg, if_pos hlt]
          cases hq : parse (strip (slice (strip raw) (idx + 7) e)) with
          | some j2 =>
            cases hc : countArtifacts j2 with
            | some n =>
              simp only [hq, hc]
              rfl
            | none =>
              simp only [hq, hc]
              rfl
          | none => simp only [hq]
        · have hle : idx + 7 ≤ e := findFrom_some_le hg
          have he : e = idx + 7 := le_antisymm (Nat.not_lt.mp hlt) hle
          subst he
          simp only [hp, hf, hg, if_neg hlt, slice_self, strip_nil, hempty]

theorem safeDiv_nonneg {a b : ℚ} (ha : 0 ≤ a) (hb : 0 ≤ b) : 0 ≤ safeDiv a b := by
  unfold safeDiv
  split_ifs
  · exact le_refl 0
  · exact div_nonneg ha hb

theorem if_gt_eq_safeDiv {a b : ℚ} (hb : 0 ≤ b) :
    (if b > 0 then a / b else 0) = safeDiv a b := by
  unfold safeDiv
  rcases lt_or_eq_of_le hb with h | h
  · rw [if_pos h, if_neg (ne_of_gt h)]
  · rw [if_neg (by rw [← h]; exact lt_irrefl 0), if_pos h.symm]

theorem f1_if_comm (p r : ℚ) :
    (if r + p > 0 then 2 * r * p / (r + p) else 0) =
      (if p + r > 0 then 2 * p * r / (p + r) else 0) := by
  rw [add_comm r p]
  have hm : 2 * r * p = 2 * p * r := by ring
  rw [hm]

theorem ratio_unit_bounds {a b : ℚ} (ha : 0 ≤ a) (hab : a ≤ b) :
    0 ≤ (if b > 0 then a / b else 0) ∧ (if b > 0 then a / b else 0) ≤ 1 := by
  split_ifs with h
  · exact ⟨by positivity, (div_le_one h).mpr hab⟩
  · exact ⟨le_refl 0, by norm_num⟩

theorem f1_unit_bounds {p r : ℚ} (hp0 : 0 ≤ p) (hp1 : p ≤ 1) (hr0 : 0 ≤ r) (hr1 : r ≤ 1) :
    0 ≤ (if p + r > 0 then 2 * p * r / (p + r) else 0) ∧
      (if p + r > 0 then 2 * p * r / (p + r) else 0) ≤ 1 := by
  split_ifs with h
  · refine ⟨by positivity, ?_⟩
    rw [div_le_one h]
    nlinarith [mul_nonneg (sub_nonneg.mpr hp1) hr0, mul_nonneg (sub_nonneg.mpr hr1) hp0]
  · exact ⟨le_refl 0, by norm_num⟩

/-- Claim C1: `precision_recall_f1` returns exactly
`(tp/(tp+fp), tp/(tp+fn), 2·precision·recall/(precision+recall))` with
`tp = |pred ∩ truth|`, `fp = |pred − truth|`, `fn = |truth − pred|`, each
component `0.0` (never an error) when its denominator is zero. -/
theorem precision_recall_f1_spec (pred truth : Finset Artifact) :
    precision_recall_f1 pred truth =
      (let tp : ℚ := (pred ∩ truth).card
       let fp : ℚ := (pred \ truth).card
       let fneg : ℚ := (truth \ pred).card
       let p := safeDiv tp (tp + fp)
       let r := safeDiv tp (tp + fneg)
       (p, r, safeDiv (2 * p * r) (p + r))) := by
  have h1 : (0 : ℚ) ≤ ((pred ∩ truth).card : ℚ) := by positivity
  have hfp : (0 : ℚ) ≤ ((pred ∩ truth).card : ℚ) + ((pred \ truth).card : ℚ) := by positivity
  have hfn : (0 : ℚ) ≤ ((pred ∩ truth).card : ℚ) + ((truth \ pred).card : ℚ) := by positivity
  simp only [precision_recall_f1]
  rw [if_gt_eq_safeDiv hfp, if_gt_eq_safeDiv hfn,
    if_gt_eq_safeDiv (add_nonneg (safeDiv_nonneg h1 hfp) (safeDiv_nonneg h1 hfn))]

/-- Claim C10: On two empty sets `precision_recall_f1` returns `(0.0, 0.0, 0.0)`
rather than a perfect or undefined score. -/
theorem precision_recall_f1_empty_empty :
    precision_recall_f1 (∅ : Finset Artifact) ∅ = (0, 0, 0) := by
  simp [precision_recall_f1]

/-- Claim C8: Swapping predicted and truth sets swaps precision and recall and
leaves F1 unchanged. -/
theorem precision_recall_f1_swap (S T : Finset Artifact) :
    precision_recall_f1 T S =
      ((precision_recall_f1 S T).2.1, (precision_recall_f1 S T).1,
        (precision_recall_f1 S T).2.2) := by
  simp only [precision_recall_f1]
  rw [Finset.inter_comm T S]
  exact Prod.ext rfl (Prod.ext rfl (f1_if_comm _ _))

/-- Claim C9: Every score the Evaluator computes — precision, recall, F1 and
mapping accuracy — lies in the closed interval `[0, 1]`. -/
theorem scores_in_unit_interval {β : Type} [DecidableEq β]
    (pred truth : Finset Artifact) (pm tm : Dict β) :
    (0 ≤ (precision_recall_f1 pred truth).1 ∧ (precision_recall_f1 pred truth).1 ≤ 1) ∧
    (0 ≤ (precision_recall_f1 pred truth).2.1 ∧ (precision_recall_f1 pred truth).2.1 ≤ 1) ∧
    (0 ≤ (precision_recall_f1 pred truth).2.2 ∧ (precision_recall_f1 pred truth).2.2 ≤ 1) ∧
    (0 ≤ mapping_accuracy pm tm ∧ mapping_accuracy pm tm ≤ 1) := by
  have h1 : (0 : ℚ) ≤ ((pred ∩ truth).card : ℚ) := by positivity
  have h2 : ((pred ∩ truth).card : ℚ) ≤ ((pred ∩ truth).card : ℚ) + ((pred \ truth).card : ℚ) := by
    have : (0 : ℚ) ≤ ((pred \ truth).card : ℚ) := by positivity
    linarith
  have h3 : ((pred ∩ truth).card : ℚ) ≤ ((pred ∩ truth).card : ℚ) + ((truth \ pred).card : ℚ) := by
    have : (0 : ℚ) ≤ ((truth \ pred).card : ℚ) := by positivity
    linarith
  have hp := ratio_unit_bounds h1 h2
  have hr := ratio_unit_bounds h1 h3
  refine ⟨?_, ?_, ?_, ?_⟩
  · simpa only [precision_recall_f1] using hp
  · simpa only [precision_recall_f1] using hr
  · simpa only [precision_recall_f1] using f1_unit_bounds hp.1 hp.2 hr.1 hr.2
  · unfold mapping_accuracy
    simp only
    split_ifs with h
    · norm_num
    · have hne : (dkeys tm ∩ dkeys pm).Nonempty := Finset.nonempty_of_ne_empty h
      have hcard : 0 < (dkeys tm ∩ dkeys pm).card := Finset.card_pos.mpr hne
      have hcardq : (0 : ℚ) < ((dkeys tm ∩ dkeys pm).card : ℚ) := by exact_mod_cast hcard
      constructor
      · positivity
      · rw [div_le_one hcardq]
        exact_mod_cast Finset.card_filter_le _ _

theorem asStr_pyOrEmptyStr_str : ∀ s : List Char, asStr (pyOrEmptyStr (.str s)) = some s
  | [] => rfl
  | _ :: _ => rfl

theorem asStr_pyOrEmptyStr_null : asStr (pyOrEmptyStr .null) = some [] := rfl

theorem normType_obj (fs : List (List Char × JVal)) :
    normType (.obj fs) =
      (asStr (pyOrEmptyStr (dlookupN fs typeKey))).map (fun s => toLower (strip s)) := rfl

theorem normVal_obj (fs : List (List Char × JVal)) :
    normVal (.obj fs) = (asStr (pyOrEmptyStr (dlookupN fs valueKey))).map strip := rfl

theorem dlookupD_eq_none {fs : List (List Char × JVal)} {k : List Char} {d : JVal}
    (h : dlookup fs k = none) : dlookupD fs k d = d := by
  unfold dlookupD
  rw [h]

theorem dlookupD_eq_some {fs : List (List Char × JVal)} {k : List Char} {v d : JVal}
    (h : dlookup fs k = some v) : dlookupD fs k d = v := by
  unfold dlookupD
  rw [h]

theorem dlookupN_eq_none {fs : List (List Char × JVal)} {k : List Char}
    (h : dlookup fs k = none) : dlookupN fs k = .null :=
  dlookupD_eq_none h

theorem dlookupN_eq_some {fs : List (List Char × JVal)} {k : List Char} {v : JVal}
    (h : dlookup fs k = some v) : dlookupN fs k = v :=
  dlookupD_eq_some h

/-- Claim C4: Normalization lower-cases and strips the `type` string, strips
the `value` string preserving its casing, renders an absent field as the
empty string, and never fails on artifact records with absent-or-string
fields. -/
theorem normalize_spec (fs : List (List Char × JVal)) (t v : List Char)
    (ht : fieldAsStr (dlookup fs typeKey) = some t)
    (hv : fieldAsStr (dlookup fs valueKey) = some v) :
    normType (.obj fs) = some (toLower (strip t)) ∧
      normVal (.obj fs) = some (strip v) := by
  constructor
  · rw [normType_obj]
    cases hl : dlookup fs typeKey with
    | none =>
      rw [hl] at ht
      have ht' : t = [] := (Option.some.inj ht).symm
      subst ht'
      rw [dlookupN_eq_none hl, asStr_pyOrEmptyStr_null]
      rfl
    | some jv =>
      rw [hl] at ht
      cases jv with
      | str s =>
        have ht' : s = t := Option.some.inj ht
        subst ht'
        rw [dlookupN_eq_some hl, asStr_pyOrEmptyStr_str]
        rfl
      | null => exact absurd ht (by simp [fieldAsStr])
      | bool b => exact absurd ht (by simp [fieldAsStr])
      | num n => exact absurd ht (by simp [fieldAsStr])
      | arr xs => exact absurd ht (by simp [fieldAsStr])
      | obj gs => exact absurd ht (by simp [fieldAsStr])
  · rw [normVal_obj]
    cases hl : dlookup fs valueKey with
    | none =>
      rw [hl] at hv
      have hv' : v = [] := (Option.some.inj hv).symm
      subst hv'
      rw [dlookupN_eq_none hl, asStr_pyOrEmptyStr_null]
      rfl
    | some jv =>
      rw [hl] at hv
      cases jv with
      | str s =>
        have hv' : s = v := Option.some.inj hv
        subst hv'
        rw [dlookupN_eq_some hl, asStr_pyOrEmptyStr_str]
        rfl
      | null => exact absurd hv (by simp [fieldAsStr])
      | bool b => exact absurd hv (by simp [fieldAsStr])
      | num n => exact absurd hv (by simp [fieldAsStr])
      | arr xs => exact absurd hv (by simp [fieldAsStr])
      | obj gs => exact absurd hv (by simp [fieldAsStr])

/-- Witness for claim C4: on a concrete record, the type is lower-cased and
stripped and the value only stripped. -/
theorem normalize_spec_witness :
    normType (.obj artRecW) = some "ip".toList ∧
      normVal (.obj artRecW) = some "1.2.3.4".toList := by
  have h := normalize_spec artRecW "  IP ".toList " 1.2.3.4 ".toList rfl rfl
  exact ⟨h.1.trans (by rfl), h.2.trans (by rfl)⟩

theorem artLoop_spec (xs : List JVal) :
    ∀ acc : Finset Artifact,
      (∀ a ∈ xs, (normType a).isSome ∧ (normVal a).isSome) →
      artLoop xs acc = some (acc ∪ (xs.filterMap specNormPair).toFinset) := by
  induction xs with
  | nil =>
    intro acc _
    simp [artLoop]
  | cons a rest ih =>
    intro acc hwf
    obtain ⟨t, ht⟩ := Option.isSome_iff_exists.mp (hwf a (List.mem_cons_self a rest)).1
    obtain ⟨v, hv⟩ := Option.isSome_iff_exists.mp (hwf a (List.mem_cons_self a rest)).2
    have hrest : ∀ b ∈ rest, (normType b).isSome ∧ (normVal b).isSome :=
      fun b hb => hwf b (List.mem_cons_of_mem a hb)
    unfold artLoop
    rw [ht, hv]
    dsimp only
    rw [ih _ hrest]
    by_cases hc : t ≠ [] ∧ v ≠ []
    · have hsp : specNormPair a = some (t, v) := by
        unfold specNormPair
        rw [ht, hv]
        dsimp only
        rw [if_pos hc]
      rw [if_pos hc, List.filterMap_cons, hsp]
      dsimp only
      simp only [List.toFinset_cons]
      rw [Finset.insert_union, Finset.union_insert]
    · have hsp : specNormPair a = none := by
        unfold specNormPair
        rw [ht, hv]
        dsimp only
        rw [if_neg hc]
      rw [if_neg hc, List.filterMap_cons, hsp]

/-- Claim C5: The artifact set built by `to_artifact_set` contains exactly the
normalized pairs of the document's artifacts whose normalized type and
value are both non-empty; all other artifacts are excluded. -/
theorem to_artifact_set_spec (fs : List (List Char × JVal)) (xs : List JVal)
    (hx : dlookup fs artifactsKey = some (.arr xs))
    (hwf : ∀ a ∈ xs, (normType a).isSome ∧ (normVal a).isSome) :
    to_artifact_set (.obj fs) = some ((xs.filterMap specNormPair).toFinset) := by
  unfold to_artifact_set
  dsimp only
  rw [dlookupD_eq_some hx]
  dsimp only [iterElems]
  rw [artLoop_spec xs ∅ hwf, Finset.empty_union]

/-- Witness for claim C5: evaluating the theorem's conclusion on `artsDocW`
keeps only the fully normalized pair. -/
theorem to_artifact_set_spec_witness :
    to_artifact_set (.obj artsDocW) =
      some ((artsElemsW.filterMap specNormPair).toFinset) ∧
    (artsElemsW.filterMap specNormPair).toFinset = {("ip".toList, "1.2.3.4".toList)} :=
  ⟨to_artifact_set_spec artsDocW artsElemsW rfl (by decide), by rfl⟩

theorem dkeys_dinsert {β : Type} (m : Dict β) (k : Artifact) (v : β) :
    dkeys (dinsert m k v) = insert k (dkeys m) := by
  unfold dinsert dkeys
  by_cases h : m.any (fun p => p.1 = k)
  · rw [if_pos h]
    have hmap : (m.map (fun p => if p.1 = k then (k, v) else p)).map Prod.fst =
        m.map Prod.fst := by
      rw [List.map_map]
      apply List.map_congr_left
      intro p _
      by_cases hpk : p.1 = k
      · simp [hpk]
      · simp [hpk]
    rw [hmap]
    have hk : k ∈ (m.map Prod.fst).toFinset := by
      rw [List.mem_toFinset, List.mem_map]
      rcases List.any_eq_true.mp h with ⟨p, hp, hpk⟩
      exact ⟨p, hp, by simpa using hpk⟩
    exact (Finset.insert_eq_self.mpr hk).symm
  · rw [if_neg h]
    simp only [List.map_append, List.map_cons, List.map_nil, List.toFinset_append,
      List.toFinset_cons, List.toFinset_nil]
    ext x
    simp only [Finset.mem_union, Finset.mem_insert, Finset.not_mem_empty, or_false]
    exact or_comm

theorem find?_map_overwrite {β : Type} (m : Dict β) (k k' : Artifact) (v : β) (hne : k' ≠ k) :
    (m.map (fun p => if p.1 = k then (k, v) else p)).find? (fun p => p.1 = k') =
      m.find? (fun p => p.1 = k') := by
  induction m with
  | nil => rfl
  | cons p rest ih =>
    by_cases hp : p.1 = k'
    · have hpk : ¬p.1 = k := fun hk => hne (hp ▸ hk ▸ rfl)
      simp only [List.map_cons, if_neg hpk]
      rw [List.find?_cons_of_pos _ (by simpa using hp), List.find?_cons_of_pos _ (by simpa using hp)]
    · by_cases hpk : p.1 = k
      · simp only [List.map_cons, if_pos hpk]
        rw [List.find?_cons_of_neg _ (by simpa using Ne.symm hne),
          List.find?_cons_of_neg _ (by simpa using hp)]
        exact ih
      · simp only [List.map_cons, if_neg hpk]
        rw [List.find?_cons_of_neg _ (by simpa using hp),
          List.find?_cons_of_neg _ (by simpa using hp)]
        exact ih

theorem find?_append_new {β : Type} (m : Dict β) (k k' : Artifact) (v : β) (hne : k' ≠ k) :
    (m ++ [(k, v)]).find? (fun p => p.1 = k') = m.find? (fun p => p.1 = k') := by
  induction m with
  | nil =>
    simp only [List.nil_append]
    rw [List.find?_cons_of_neg _ (by simpa using Ne.symm hne)]
  | cons p rest ih =>
    by_cases hp : p.1 = k'
    · rw [List.cons_append, List.find?_cons_of_pos _ (by simpa using hp),
        List.find?_cons_of_pos _ (by simpa using hp)]
    · rw [List.cons_append, List.find?_cons_of_neg _ (by simpa using hp),
        List.find?_cons_of_neg _ (by simpa using hp)]
      exact ih

theorem dget_dinsert_ne {β : Type} (m : Dict β) (k k' : Artifact) (v : β) (hne : k' ≠ k) :
    dget (dinsert m k v) k' = dget m k' := by
  unfold dinsert dget
  by_cases h : m.any (fun p => p.1 = k)
  · rw [if_pos h, find?_map_overwrite m k k' v hne]
  · rw [if_neg h, find?_append_new m k k' v hne]

/-- Claim C2: `mapping_accuracy` returns `0.0` on disjoint key sets (in
particular when either map is empty) and otherwise the number of shared
keys with exactly string-equal phase labels divided by the number of shared
keys; inserting a key present in only one map never changes the result. -/
theorem mapping_accuracy_spec (pred_map truth_map : Dict (List Char)) :
    (mapping_accuracy pred_map truth_map =
      (if dkeys truth_map ∩ dkeys pred_map = ∅ then 0
       else (((dkeys truth_map ∩ dkeys pred_map).filter
            (fun k => dget pred_map k = dget truth_map k)).card : ℚ) /
          ((dkeys truth_map ∩ dkeys pred_map).card : ℚ))) ∧
    (∀ k v, k ∉ dkeys truth_map →
      mapping_accuracy (dinsert pred_map k v) truth_map =
        mapping_accuracy pred_map truth_map) ∧
    (∀ k v, k ∉ dkeys pred_map →
      mapping_accuracy pred_map (dinsert truth_map k v) =
        mapping_accuracy pred_map truth_map) := by
  refine ⟨rfl, ?_, ?_⟩
  · intro k v hk
    simp only [mapping_accuracy]
    rw [dkeys_dinsert, Finset.inter_insert_of_not_mem hk]
    have hfil : (dkeys truth_map ∩ dkeys pred_map).filter
          (fun x => dget (dinsert pred_map k v) x = dget truth_map x) =
        (dkeys truth_map ∩ dkeys pred_map).filter
          (fun x => dget pred_map x = dget truth_map x) := by
      apply Finset.filter_congr
      intro x hx
      have hxk : x ≠ k := by
        intro hxe
        exact hk (hxe ▸ (Finset.mem_inter.mp hx).1)
      rw [dget_dinsert_ne pred_map k x v hxk]
    rw [hfil]
  · intro k v hk
    simp only [mapping_accuracy]
    rw [dkeys_dinsert, Finset.insert_inter_of_not_mem hk]
    have hfil : (dkeys truth_map ∩ dkeys pred_map).filter
          (fun x => dget pred_map x = dget (dinsert truth_map k v) x) =
        (dkeys truth_map ∩ dkeys pred_map).filter
          (fun x => dget pred_map x = dget truth_map x) := by
      apply Finset.filter_congr
      intro x hx
      have hxk : x ≠ k := by
        intro hxe
        exact hk (hxe ▸ (Finset.mem_inter.mp hx).2)
      rw [dget_dinsert_ne truth_map k x v hxk]
    rw [hfil]

theorem override_none {γ : Type} (x : Option γ) : override none x = x := by
  cases x <;> rfl

theorem override_assoc {γ : Type} (a b c : Option γ) :
    override (override a b) c = override a (override b c) := by
  cases c <;> rfl

theorem find?_key_append {β : Type} (l1 l2 : List (Artifact × β)) (k : Artifact) :
    (l1 ++ l2).find? (fun p => p.1 = k) =
      override (l2.find? (fun p => p.1 = k)) (l1.find? (fun p => p.1 = k)) := by
  induction l1 with
  | nil => rfl
  | cons p rest ih =>
    by_cases hp : p.1 = k
    · rw [List.cons_append, List.find?_cons_of_pos _ (by simpa using hp),
        List.find?_cons_of_pos _ (by simpa using hp)]
      rfl
    · rw [List.cons_append, List.find?_cons_of_neg _ (by simpa using hp),
        List.find?_cons_of_neg _ (by simpa using hp)]
      exact ih

theorem override_map {β γ : Type} (a b : Option β) (f : β → γ) :
    (override a b).map f = override (a.map f) (b.map f) := by
  cases b <;> rfl

theorem lastAssign_append {β : Type} (w1 w2 : List (Artifact × β)) (k : Artifact) :
    lastAssign (w1 ++ w2) k = override (lastAssign w1 k) (lastAssign w2 k) := by
  unfold lastAssign
  rw [List.reverse_append, find?_key_append, override_map]

theorem lastAssign_cons {β : Type} (x : Artifact × β) (l : List (Artifact × β)) (k : Artifact) :
    lastAssign (x :: l) k =
      override (if x.1 = k then some x.2 else none) (lastAssign l k) := by
  have h : x :: l = [x] ++ l := rfl
  rw [h, lastAssign_append]
  have hx : lastAssign [x] k = if x.1 = k then some x.2 else none := by
    unfold lastAssign
    by_cases hp : x.1 = k
    · rw [List.reverse_singleton, List.find?_cons_of_pos _ (by simpa using hp), if_pos hp]
      rfl
    · rw [List.reverse_singleton, List.find?_cons_of_neg _ (by simpa using hp), if_neg hp]
      rfl
  rw [hx]

theorem find?_map_overwrite_self {β : Type} (m : Dict β) (k : Artifact) (v : β)
    (h : m.any (fun p => p.1 = k) = true) :
    (m.map (fun p => if p.1 = k then (k, v) else p)).find? (fun p => p.1 = k) =
      some (k, v) := by
  induction m with
  | nil => cases h
  | cons p rest ih =>
    by_cases hp : p.1 = k
    · rw [List.map_cons, if_pos hp, List.find?_cons_of_pos _ (by simp)]
    · rw [List.map_cons, if_neg hp, List.find?_cons_of_neg _ (by simpa using hp)]
      apply ih
      rw [List.any_cons] at h
      rw [decide_eq_false hp, Bool.false_or] at h
      exact h

theorem find?_key_none {β : Type} (m : Dict β) (k : Artifact)
    (h : m.any (fun p => p.1 = k) = false) :
    m.find? (fun p => p.1 = k) = none := by
  induction m with
  | nil => rfl
  | cons p rest ih =>
    rw [List.any_cons] at h
    by_cases hp : p.1 = k
    · rw [decide_eq_true hp, Bool.true_or] at h
      exact Bool.noConfusion h
    · rw [List.find?_cons_of_neg _ (by simpa using hp)]
      apply ih
      rw [decide_eq_false hp, Bool.false_or] at h
      exact h

theorem dget_dinsert_self {β : Type} (m : Dict β) (k : Artifact) (v : β) :
    dget (dinsert m k v) k = some v := by
  unfold dinsert dget
  by_cases h : m.any (fun p => p.1 = k)
  · rw [if_pos h, find?_map_overwrite_self m k v h]
    rfl
  · rw [if_neg h, find?_key_append, find?_key_none m k (Bool.not_eq_true _ ▸ h),
      List.find?_cons_of_pos _ (by simp)]
    rfl

theorem phaseArtLoop_spec (ph : JVal) (xs : List JVal) :
    ∀ m m2 : Dict JVal, phaseArtLoop ph xs m = some m2 →
      ∀ k, dget m2 k = override (dget m k) (lastAssign (xs.filterMap (writeOf ph)) k) := by
  induction xs with
  | nil =>
    intro m m2 h k
    have hm : m = m2 := Option.some.inj h
    subst hm
    rfl
  | cons a rest ih =>
    intro m m2 h k
    unfold phaseArtLoop at h
    cases ht : normType a with
    | none =>
      cases hv : normVal a <;> rw [ht, hv] at h <;> dsimp only at h <;> cases h
    | some t =>
      cases hv : normVal a with
      | none =>
        rw [ht, hv] at h
        dsimp only at h
        cases h
      | some v =>
        rw [ht, hv] at h
        dsimp only at h
        rw [ih _ _ h k, List.filterMap_cons]
        by_cases hc : t ≠ [] ∧ v ≠ [] ∧ truthy ph
        · have hw : writeOf ph a = some ((t, v), ph) := by
            unfold writeOf
            rw [ht, hv]
            dsimp only
            rw [if_pos hc]
          rw [hw, if_pos hc, lastAssign_cons]
          cases hrw : lastAssign (rest.filterMap (writeOf ph)) k with
          | some u => rfl
          | none =>
            by_cases hk : (t, v) = k
            · subst hk
              rw [dget_dinsert_self]
              rw [if_pos rfl]
              rfl
            · rw [dget_dinsert_ne m (t, v) k ph (fun he => hk he.symm)]
              rw [if_neg hk]
              rfl
        · have hw : writeOf ph a = none := by
            unfold writeOf
            rw [ht, hv]
            dsimp only
            rw [if_neg hc]
          rw [hw, if_neg hc]

theorem phaseLoop_spec (gs : List JVal) :
    ∀ m m2 : Dict JVal, phaseLoop gs m = some m2 →
      ∀ k, dget m2 k = override (dget m k) (lastAssign (docWrites gs) k) := by
  induction gs with
  | nil =>
    intro m m2 h k
    have hm : m = m2 := Option.some.inj h
    subst hm
    rfl
  | cons p rest ih =>
    intro m m2 h k
    unfold phaseLoop at h
    cases p with
    | obj fs =>
      dsimp only at h
      cases hi : iterElems (pyOrEmptyList (dlookupD fs artifactsKey (.arr []))) with
      | none =>
        rw [hi] at h
        cases h
      | some xs =>
        rw [hi] at h
        dsimp only at h
        cases hpa : phaseArtLoop (dlookupD fs phaseKey (.str [])) xs m with
        | none =>
          rw [hpa] at h
          cases h
        | some m1 =>
          rw [hpa] at h
          dsimp only at h
          rw [ih m1 m2 h k, phaseArtLoop_spec _ xs m m1 hpa k]
          have hd : docWrites (JVal.obj fs :: rest) = groupWrites (.obj fs) ++ docWrites rest := rfl
          rw [hd, lastAssign_append]
          have hgw : groupWrites (.obj fs) =
              xs.filterMap (writeOf (dlookupD fs phaseKey (.str []))) := by
            unfold groupWrites
            dsimp only
            rw [hi]
          rw [hgw, override_assoc]
    | null => cases h
    | bool b => cases h
    | num n => cases h
    | str s => cases h
    | arr ys => cases h

/-- Claim C6: `to_phase_map` assigns each normalized artifact pair the phase of
the last write for it in group order (last-write-wins), and entries with an
empty (falsy) phase name or empty normalized type or value contribute no
write. -/
theorem to_phase_map_spec (fs : List (List Char × JVal)) (gs : List JVal) (m : Dict JVal)
    (hg : dlookup fs killChainKey = some (.arr gs))
    (hm : to_phase_map (.obj fs) = some m) (k : Artifact) :
    dget m k = lastAssign (docWrites gs) k := by
  unfold to_phase_map at hm
  dsimp only at hm
  rw [dlookupD_eq_some hg] at hm
  dsimp only [iterElems] at hm
  rw [phaseLoop_spec gs [] m hm k]
  exact override_none _

/-- Witness for claim C6: the duplicated pair ends mapped to the later phase
`"Persistence"`. -/
theorem to_phase_map_spec_witness :
    dget kcMapW ("ip".toList, "1.2.3.4".toList) = some (.str "Persistence".toList) ∧
      to_phase_map (.obj kcDocW) = some kcMapW :=
  ⟨(to_phase_map_spec kcDocW kcGroupsW kcMapW rfl rfl
      ("ip".toList, "1.2.3.4".toList)).trans (by rfl),
    by rfl⟩

theorem entryOk_eq_true {a : JVal} (h : entryOk a = true) :
    (normType a).isSome = true ∧ (normVal a).isSome = true := by
  unfold entryOk at h
  rw [Bool.and_eq_true] at h
  exact h

theorem to_artifact_set_eq (doc : JVal) :
    to_artifact_set doc =
      match iterElems (artifactsContainer doc) with
      | some xs => artLoop xs ∅
      | none => none := by
  cases doc <;> rfl

theorem to_phase_map_eq (doc : JVal) :
    to_phase_map doc =
      match iterElems (killChainContainer doc) with
      | some gs => phaseLoop gs []
      | none => none := by
  cases doc <;> rfl

theorem phaseArtLoop_isSome (ph : JVal) (xs : List JVal)
    (hwf : ∀ a ∈ xs, (normType a).isSome ∧ (normVal a).isSome) :
    ∀ m : Dict JVal, (phaseArtLoop ph xs m).isSome := by
  induction xs with
  | nil => intro m; rfl
  | cons a rest ih =>
    intro m
    obtain ⟨t, ht⟩ := Option.isSome_iff_exists.mp (hwf a (List.mem_cons_self a rest)).1
    obtain ⟨v, hv⟩ := Option.isSome_iff_exists.mp (hwf a (List.mem_cons_self a rest)).2
    unfold phaseArtLoop
    rw [ht, hv]
    dsimp only
    exact ih (fun b hb => hwf b (List.mem_cons_of_mem a hb)) _

theorem phaseLoop_isSome (gs : List JVal) :
    (∀ p ∈ gs, groupOk p = true) → ∀ m : Dict JVal, (phaseLoop gs m).isSome := by
  induction gs with
  | nil => intro _ m; rfl
  | cons p rest ih =>
    intro hwf m
    have hp := hwf p (List.mem_cons_self p rest)
    unfold groupOk at hp
    cases p with
    | obj fs =>
      dsimp only at hp
      cases hi : iterElems (pyOrEmptyList (dlookupD fs artifactsKey (.arr []))) with
      | none =>
        rw [hi] at hp
        exact Bool.noConfusion hp
      | some xs =>
        rw [hi] at hp
        dsimp only at hp
        have hxs : ∀ a ∈ xs, (normType a).isSome ∧ (normVal a).isSome :=
          fun a ha => entryOk_eq_true (List.all_eq_true.mp hp a ha)
        have hpal := phaseArtLoop_isSome (dlookupD fs phaseKey (.str [])) xs hxs m
        cases hpa : phaseArtLoop (dlookupD fs phaseKey (.str [])) xs m with
        | none => rw [hpa] at hpal; exact Bool.noConfusion hpal
        | some m1 =>
          unfold phaseLoop
          dsimp only
          rw [hi]
          dsimp only
          rw [hpa]
          dsimp only
          exact ih (fun q hq => hwf q (List.mem_cons_of_mem _ hq)) m1
    | null => exact Bool.noConfusion hp
    | bool b => exact Bool.noConfusion hp
    | num n => exact Bool.noConfusion hp
    | str s => exact Bool.noConfusion hp
    | arr ys => exact Bool.noConfusion hp

/-- Counterexample to claim C7: on the document `{"artifacts": [42]}` — a
malformed artifact entry — `to_artifact_set` raises (Python
`AttributeError: 'int' object has no attribute 'get'`, modelled as `none`)
rather than degrading to an empty set. -/
theorem to_artifact_set_raises_on_malformed :
    to_artifact_set (.obj [(artifactsKey, .arr [.num 42])]) = none := rfl

/-- Claim C7 amended: The Evaluator raises no exception provided every artifact
container reached is iterable, every artifact entry normalizes (a dict with
absent, falsy or string `type`/`value` fields), and every phase group is
such a dict; absent keys and non-dict documents still degrade to the empty
set/map, and empty inputs score `0.0`. -/
theorem evaluator_no_exception_on_wf (d1 d2 : JVal)
    (h1 : wfArtifactsObj d1 = true) (h2 : wfKillChainObj d2 = true) :
    ((to_artifact_set d1).isSome ∧ (to_phase_map d2).isSome) ∧
      (to_artifact_set (.obj []) = some ∅ ∧ to_phase_map (.obj []) = some [] ∧
        to_artifact_set .null = some ∅ ∧ to_phase_map .null = some []) ∧
      precision_recall_f1 ∅ ∅ = (0, 0, 0) ∧
      mapping_accuracy ([] : Dict (List Char)) [] = 0 := by
  refine ⟨⟨?_, ?_⟩, ⟨rfl, rfl, rfl, rfl⟩, by simp [precision_recall_f1], rfl⟩
  · unfold wfArtifactsObj at h1
    cases hi : iterElems (artifactsContainer d1) with
    | none => rw [hi] at h1; exact Bool.noConfusion h1
    | some xs =>
      rw [hi] at h1
      dsimp only at h1
      have hxs : ∀ a ∈ xs, (normType a).isSome ∧ (normVal a).isSome :=
        fun a ha => entryOk_eq_true (List.all_eq_true.mp h1 a ha)
      rw [to_artifact_set_eq, hi]
      dsimp only
      rw [artLoop_spec xs ∅ hxs]
      rfl
  · unfold wfKillChainObj at h2
    cases hi : iterElems (killChainContainer d2) with
    | none => rw [hi] at h2; exact Bool.noConfusion h2
    | some gs =>
      rw [hi] at h2
      dsimp only at h2
      rw [to_phase_map_eq, hi]
      dsimp only
      exact phaseLoop_isSome gs (fun p hp => List.all_eq_true.mp h2 p hp) []

/-- Witness for the amended claim C7: the concrete well-formed documents
produce a set and a map without raising. -/
theorem evaluator_no_exception_on_wf_witness :
    ((to_artifact_set wfArtsDocW).isSome ∧ (to_phase_map wfKcDocW).isSome) ∧
      (to_artifact_set (.obj []) = some ∅ ∧ to_phase_map (.obj []) = some [] ∧
        to_artifact_set .null = some ∅ ∧ to_phase_map .null = some []) ∧
      precision_recall_f1 ∅ ∅ = (0, 0, 0) ∧
      mapping_accuracy ([] : Dict (List Char)) [] = 0 :=
  evaluator_no_exception_on_wf wfArtsDocW wfKcDocW (by decide) (by decide)

/-- Witness for claim C2: inserting a key absent from the truth map leaves a
concrete accuracy of `1/2` unchanged. -/
theorem mapping_accuracy_spec_witness :
    mapping_accuracy (dinsert pmW ("domain".toList, "evil.com".toList) "Delivery".toList) tmW =
      mapping_accuracy pmW tmW ∧ mapping_accuracy pmW tmW = 1 / 2 :=
  ⟨(mapping_accuracy_spec pmW tmW).2.1 ("domain".toList, "evil.com".toList) "Delivery".toList
      (by decide),
    by rfl⟩

/-- Witness for the amended claim C3: on a concrete fenced response the
code's recovery equals the amended algorithm and returns the fenced
empty-object payload through the count gate. -/
theorem extract_artifacts_matches_amendedSpec_witness :
    extract_artifacts_recover toyJsonParse okRaw = recoverSpecAmended toyJsonParse okRaw ∧
      extract_artifacts_recover toyJsonParse okRaw = .ok (.obj []) :=
  ⟨extract_artifacts_matches_amendedSpec toyJsonParse okRaw rfl, by rfl⟩

end Forensic

